import Mathlib

/-!
Verification of the filename-inference engine of an anime file renaming bot.

The engine consists of two pure Python functions, `extract_anime_info` and
`generate_new_filename`.  They are shallowly embedded here over `List Char`:

* `os.path.splitext` (POSIX flavour) is modelled by `pySplitExt`;
* Python regular-expression search (`re.search`) and substitution (`re.sub`)
  are modelled by a small backtracking matcher `mat` over the abstract syntax
  `Rx`, with the exact leftmost/priority semantics of the `re` module for the
  constructions that occur in the source (character classes, greedy and lazy
  repetition of a character class, ordered alternation, capture groups, the
  `$` anchor and the word boundary `\b`);
* `str.strip` and `str.zfill` are modelled by `pyStrip` and `pyZfill`;
* exceptional behaviour of the match-object accessor `group` (the `no such
  group` error for an out-of-range index, the attribute error raised when
  `.strip()` is applied to a `None` group) is modelled in the `Except` monad.

Character classes are restricted to the ASCII reading of `\d`, `\s`, `\w` and
of case-insensitive literals; the source only manipulates ASCII metacharacters
and tokens, and nothing in the specification depends on non-ASCII classes.
-/

namespace AnimeBot

/-- The characters matched by the regex class `\s` and stripped by
`str.strip`, in their ASCII reading. -/
def pyIsSpace (c : Char) : Bool :=
  c == ' ' || c == '\t' || c == '\n' || c == '\r' || c == '\x0b' || c == '\x0c'

/-- The characters matched by the regex class `\d` (ASCII reading). -/
def pyIsDigit (c : Char) : Bool :=
  c.isDigit

/-- The characters matched by the regex class `\w` (ASCII reading), used by
the word-boundary assertion `\b`. -/
def isWordChar (c : Char) : Bool :=
  c.isAlphanum || c == '_'

/-- Capture registers: a stack of `(group index, start, end)` entries.  The
most recent entry for a group shadows older ones, exactly as a backtracking
engine overwrites a group on a later capture. -/
abbrev Caps := List (Nat × Nat × Nat)

/-- Most recent capture recorded for group `n`, if any. -/
def capLookup (n : Nat) : Caps → Option (Nat × Nat)
  | [] => none
  | (m, a, b) :: rest => if m = n then some (a, b) else capLookup n rest

/-- Abstract syntax of the regular expressions appearing in the source.
Repetition is only ever applied to a single character class there, so `star`
takes a character predicate; `alt` is ordered (left branch preferred). -/
inductive Rx where
  | eps : Rx
  | one (p : Char → Bool) : Rx
  | star (p : Char → Bool) (lazy : Bool) : Rx
  | seq (a b : Rx) : Rx
  | alt (a b : Rx) : Rx
  | grp (n : Nat) (r : Rx) : Rx
  | eos : Rx
  | wordB : Rx

/-- Length of the longest prefix of `l` whose characters all satisfy `p`:
the number of characters a star over the class `p` can consume. -/
def countRun (p : Char → Bool) : List Char → Nat
  | [] => 0
  | c :: t => if p c then countRun p t + 1 else 0

/-- Candidate end positions for a star that begins at `i` and can consume up
to `run` characters, in the order a backtracking engine tries them: shortest
first when lazy, longest first when greedy. -/
def starPositions (i run : Nat) (lazy : Bool) : List Nat :=
  let l := (List.range (run + 1)).map (fun d => i + d)
  if lazy then l else l.reverse

/-- Run the continuation on each candidate position in order and keep the
first success. -/
def tryPositions {α : Type} (k : Nat → Caps → Option α) (caps : Caps) :
    List Nat → Option α
  | [] => none
  | j :: rest =>
    match k j caps with
    | some r => some r
    | none => tryPositions k caps rest

/-- The `$` anchor of the `re` module (no `MULTILINE`): end of the string, or
just before a final newline. -/
def atEos (s : List Char) (i : Nat) : Bool :=
  i == s.length || (i + 1 == s.length && s[i]? == some '\n')

/-- Whether position `i` of `s` holds a word character; positions outside the
string do not. -/
def wordAt (s : List Char) (i : Nat) : Bool :=
  match s[i]? with
  | some c => isWordChar c
  | none => false

/-- The `\b` word-boundary assertion at position `i`. -/
def atWordBoundary (s : List Char) (i : Nat) : Bool :=
  (if i = 0 then false else wordAt s (i - 1)) != wordAt s i

/-- Backtracking matcher in continuation-passing style.  `mat r s i caps k`
attempts to match `r` in `s` starting at position `i` with capture state
`caps`, calling `k` at each candidate way of matching, in the priority order
of a backtracking engine; the first success wins. -/
def mat {α : Type} (r : Rx) (s : List Char) (i : Nat) (caps : Caps)
    (k : Nat → Caps → Option α) : Option α :=
  match r with
  | .eps => k i caps
  | .one p =>
    match s[i]? with
    | some c => if p c then k (i + 1) caps else none
    | none => none
  | .star p lazy => tryPositions k caps (starPositions i (countRun p (s.drop i)) lazy)
  | .seq a b => mat a s i caps (fun j c => mat b s j c k)
  | .alt a b =>
    match mat a s i caps k with
    | some r => some r
    | none => mat b s i caps k
  | .grp n a => mat a s i caps (fun j c => k j ((n, i, j) :: c))
  | .eos => if atEos s i then k i caps else none
  | .wordB => if atWordBoundary s i then k i caps else none

/-- Try the start positions `i, i+1, ...` (`n` of them); the first position
admitting a match wins.  Returns `(start, end, captures)`. -/
def searchCount (r : Rx) (s : List Char) : Nat → Nat → Option (Nat × Nat × Caps)
  | _, 0 => none
  | i, n + 1 =>
    match mat r s i [] (fun j c => some (i, j, c)) with
    | some t => some t
    | none => searchCount r s (i + 1) n

/-- `re.search` semantics with scanning constrained to start positions `≥ i`:
the leftmost start position with a match wins, and at that position the
backtracking-preferred match is returned. -/
def searchFrom (r : Rx) (s : List Char) (i : Nat) : Option (Nat × Nat × Caps) :=
  searchCount r s i (s.length + 1 - i)

/-- Scanning loop of `re.sub`: replace every non-overlapping match of `r` in
`s` from position `i` on by `rep`.  After an empty match one character is
copied over and scanning resumes one position later, as in the `re` module.
The fuel argument is only a structural termination device: every iteration
advances the scan position, so the initial fuel `s.length + 2` supplied by
`pySub` is never exhausted. -/
def pySubAux (r : Rx) (rep : List Char) (s : List Char) : Nat → Nat → List Char
  | i, 0 => s.drop i
  | i, fuel + 1 =>
    match searchFrom r s i with
    | none => s.drop i
    | some (a, b, _) =>
      (s.drop i).take (a - i) ++ rep ++
        (if a < b then pySubAux r rep s b fuel
         else (s.drop b).take 1 ++ pySubAux r rep s (b + 1) fuel)

/-- `re.sub(r, rep, s)`. -/
def pySub (r : Rx) (rep : List Char) (s : List Char) : List Char :=
  pySubAux r rep s 0 (s.length + 2)

/-- Exact-character literal. -/
def litC (c : Char) : Rx :=
  .one (fun x => x == c)

/-- Case-insensitive character literal (`re.IGNORECASE`, ASCII folding). -/
def litCI (c : Char) : Rx :=
  .one (fun x => x.toLower == c.toLower)

/-- Sequential composition of a list of expressions. -/
def seqs (l : List Rx) : Rx :=
  l.foldr .seq .eps

/-- Case-insensitive literal word. -/
def strI (t : List Char) : Rx :=
  seqs (t.map litCI)

/-- Ordered alternation of a nonempty list (first alternative preferred). -/
def alts : List Rx → Rx
  | [] => .one (fun _ => false)
  | [a] => a
  | a :: rest => .alt a (alts rest)

/-- `.` (any character but a newline; no `DOTALL`). -/
def dotP (c : Char) : Bool :=
  c != '\n'

/-- `X+` as `X` followed by `X*`, with the given repetition polarity. -/
def plusP (p : Char → Bool) (lazy : Bool) : Rx :=
  .seq (.one p) (.star p lazy)

/-- Pattern 1 of the source: `\[.*?\]\s*(.+?)\s*-\s*(\d+)`. -/
def pat1 : Rx :=
  seqs [litC '[', .star dotP true, litC ']', .star pyIsSpace false,
    .grp 1 (plusP dotP true), .star pyIsSpace false, litC '-',
    .star pyIsSpace false, .grp 2 (plusP pyIsDigit false)]

/-- Pattern 2 of the source: `(.+?)\.(?:S\d+E(\d+)|Episode\.(\d+))`. -/
def pat2 : Rx :=
  seqs [.grp 1 (plusP dotP true), litC '.',
    .alt (seqs [litCI 'S', plusP pyIsDigit false, litCI 'E',
                .grp 2 (plusP pyIsDigit false)])
         (seqs [strI "Episode".data, litC '.', .grp 3 (plusP pyIsDigit false)])]

/-- Pattern 3 of the source: `(.+?)\s+Episode\s+(\d+)`. -/
def pat3 : Rx :=
  seqs [.grp 1 (plusP dotP true), plusP pyIsSpace false, strI "Episode".data,
    plusP pyIsSpace false, .grp 2 (plusP pyIsDigit false)]

/-- Pattern 4 of the source: `(.+?)\s*-\s*(\d+)`. -/
def pat4 : Rx :=
  seqs [.grp 1 (plusP dotP true), .star pyIsSpace false, litC '-',
    .star pyIsSpace false, .grp 2 (plusP pyIsDigit false)]

/-- Pattern 5 of the source: `(.+?)\s+(\d+)(?:\s|$)`. -/
def pat5 : Rx :=
  seqs [.grp 1 (plusP dotP true), plusP pyIsSpace false,
    .grp 2 (plusP pyIsDigit false), .alt (.one pyIsSpace) .eos]

/-- The separator class of the normalisation step: `[\.\-_]`. -/
def sepChar (c : Char) : Bool :=
  c == '.' || c == '-' || c == '_'

/-- Normalisation pattern `[\.\-_]+`. -/
def sepRe : Rx :=
  plusP sepChar false

/-- Normalisation pattern `\s+`. -/
def wsRe : Rx :=
  plusP pyIsSpace false

/-- The quality-indicator tokens removed from the name. -/
def qualityTags : List (List Char) :=
  ["720p".data, "1080p".data, "480p".data, "BD".data, "BluRay".data,
   "WEB".data, "HDTV".data]

/-- Normalisation pattern `\b(720p|1080p|480p|BD|BluRay|WEB|HDTV)\b` with
`re.IGNORECASE`. -/
def tagRe : Rx :=
  seqs [.wordB, .grp 1 (alts (qualityTags.map strI)), .wordB]

/-- The filesystem-reserved characters removed by `generate_new_filename`:
the class `[<>:"/\\|?*]`. -/
def reservedChar (c : Char) : Bool :=
  c == '<' || c == '>' || c == ':' || c == '"' || c == '/' || c == '\\' ||
  c == '|' || c == '?' || c == '*'

/-- The deletion pattern `[<>:"/\\|?*]`. -/
def reservedRe : Rx :=
  .one reservedChar

/-- Index of the last character of `l` satisfying `p`, or `-1` when there is
none: Python's `str.rfind` for a character class. -/
def lastIdxAux (p : Char → Bool) : List Char → Nat → Int → Int
  | [], _, acc => acc
  | c :: t, i, acc => lastIdxAux p t (i + 1) (if p c then (i : Int) else acc)

/-- See `lastIdxAux`. -/
def lastIndexOf (p : Char → Bool) (l : List Char) : Int :=
  lastIdxAux p l 0 (-1)

/-- `os.path.splitext` for POSIX paths: split at the final `.` provided it
comes after the final `/` and at least one character strictly between the
final `/` and that dot is not itself a dot (so the leading dots of a dotfile
never begin an extension). -/
def pySplitExt (p : List Char) : List Char × List Char :=
  let sepIndex := lastIndexOf (fun c => c == '/') p
  let dotIndex := lastIndexOf (fun c => c == '.') p
  if sepIndex < dotIndex then
    let st := (sepIndex + 1).toNat
    let dn := dotIndex.toNat
    if ((p.drop st).take (dn - st)).any (fun c => c != '.') then
      (p.take dn, p.drop dn)
    else (p, [])
  else (p, [])

/-- `str.strip()`: remove leading and trailing whitespace. -/
def pyStrip (l : List Char) : List Char :=
  ((l.dropWhile pyIsSpace).reverse.dropWhile pyIsSpace).reverse

/-- `str.zfill(width)`: left-pad with `'0'` to the requested width, keeping a
leading sign character in front of the inserted zeros. -/
def pyZfill (width : Nat) (s : List Char) : List Char :=
  if width ≤ s.length then s
  else
    match s with
    | c :: rest =>
      if c == '+' || c == '-' then
        c :: (List.replicate (width - s.length) '0' ++ rest)
      else List.replicate (width - s.length) '0' ++ s
    | [] => List.replicate width '0'

/-- Exceptions the engine can raise in principle: `group` with an index
larger than the number of groups in the pattern, and calling `.strip()` on a
`None` group. -/
inductive PyErr where
  | noSuchGroup : PyErr
  | attrError : PyErr
deriving DecidableEq, Repr

/-- A `re` match object: the subject string, the span of the whole match, the
capture registers and the number of groups of the pattern. -/
structure PyMatch where
  s : List Char
  ms : Nat
  me : Nat
  caps : Caps
  ngroups : Nat
deriving DecidableEq, Repr

/-- `match.group(n)`: the whole match for `n = 0`; for a valid positive index
the last capture of group `n` (or `None` when the group did not participate);
an error for an index beyond the pattern's groups. -/
def pyGroup (m : PyMatch) (n : Nat) : Except PyErr (Option (List Char)) :=
  if n = 0 then .ok (some ((m.s.drop m.ms).take (m.me - m.ms)))
  else if n ≤ m.ngroups then
    .ok ((capLookup n m.caps).map (fun ab => (m.s.drop ab.1).take (ab.2 - ab.1)))
  else .error .noSuchGroup

/-- Python truthiness of an optional string: `None` and the empty string are
falsy. -/
def optStrTruthy : Option (List Char) → Bool
  | none => false
  | some s => !s.isEmpty

/-- The source's ordered pattern table, each with its number of groups. -/
def patternList : List (Rx × Nat) :=
  [(pat1, 2), (pat2, 3), (pat3, 2), (pat4, 2), (pat5, 2)]

/-- The `for pattern in patterns` loop: first pattern whose `re.search`
succeeds wins. -/
def tryPatterns : List (Rx × Nat) → List Char → Option PyMatch
  | [], _ => none
  | (r, ng) :: rest, name =>
    match searchFrom r name 0 with
    | some (a, b, cs) => some ⟨name, a, b, cs, ng⟩
    | none => tryPatterns rest name

/-- `extract_anime_info` of the source: strip the extension, try the five
patterns in order; on a match, take `group(1)` stripped as the name and
`group(2) or group(3)` as the episode, then normalise the name (collapse
separator runs, collapse whitespace and strip, remove quality tags, strip);
with no match, return the stem verbatim with no episode. -/
def extract_anime_info (filename : List Char) :
    Except PyErr (List Char × Option (List Char)) :=
  let name := (pySplitExt filename).1
  match tryPatterns patternList name with
  | none => .ok (name, none)
  | some m =>
    match pyGroup m 1 with
    | .error e => .error e
    | .ok none => .error .attrError
    | .ok (some raw) =>
      match pyGroup m 2 with
      | .error e => .error e
      | .ok g2 =>
        match if optStrTruthy g2 then Except.ok g2 else pyGroup m 3 with
        | .error e => .error e
        | .ok episode =>
          let anime0 := pyStrip raw
          let a1 := pySub sepRe [' '] anime0
          let a2 := pyStrip (pySub wsRe [' '] a1)
          let a3 := pySub tagRe [] a2
          let a4 := pyStrip a3
          Except.ok (a4, episode)

/-- `generate_new_filename` of the source: append `" - Episode "` and the
zero-filled episode to the name when the episode is truthy, reattach the
original extension, and delete the filesystem-reserved characters. -/
def generate_new_filename (anime_name : List Char)
    (episode : Option (List Char)) (original_filename : List Char) : List Char :=
  let extension := (pySplitExt original_filename).2
  let new_filename :=
    match episode with
    | some e =>
      if e.isEmpty then anime_name ++ extension
      else anime_name ++ " - Episode ".data ++ pyZfill 2 e ++ extension
    | none => anime_name ++ extension
  pySub reservedRe [] new_filename

/-- Deciding equality of `Except` results (used only to evaluate the engine
on concrete inputs). -/
instance {ε α : Type} [DecidableEq ε] [DecidableEq α] : DecidableEq (Except ε α)
  | .ok a, .ok b => if h : a = b then isTrue (by rw [h]) else isFalse (by simp [h])
  | .ok _, .error _ => isFalse (by simp)
  | .error _, .ok _ => isFalse (by simp)
  | .error a, .error b => if h : a = b then isTrue (by rw [h]) else isFalse (by simp [h])

/-- The split described by the claim under scrutiny for the extension rule:
the extension is the substring from the final `.` onward whenever the
filename contains a `.` at all. -/
def claimSplit (p : List Char) : List Char × List Char :=
  let d := lastIndexOf (fun c => c == '.') p
  if 0 ≤ d then (p.take d.toNat, p.drop d.toNat) else (p, [])

/-- The splitting rule restated from the trailing end of the filename: read
the longest run of characters that are neither `.` nor `/`; if a `.`
immediately precedes it and some character between the last `/` and that dot
is not a dot, the extension starts at that dot; otherwise there is no
extension. -/
def amendedSplit (p : List Char) : List Char × List Char :=
  let r := p.reverse
  let pre := r.takeWhile (fun c => !(c == '.' || c == '/'))
  let rest := r.drop pre.length
  if rest.head? = some '.' ∧
      (rest.tail.takeWhile (fun x => x != '/')).any (fun x => x != '.') then
    (rest.tail.reverse, '.' :: pre.reverse)
  else (p, [])

/-- No leading and no trailing whitespace. -/
def noEdgeWS (l : List Char) : Bool :=
  (match l.head? with
   | some c => !pyIsSpace c
   | none => true) &&
  (match l.getLast? with
   | some c => !pyIsSpace c
   | none => true)

/-- No two adjacent whitespace characters. -/
def noDoubleWS : List Char → Bool
  | [] => true
  | [_] => true
  | a :: b :: t => !(pyIsSpace a && pyIsSpace b) && noDoubleWS (b :: t)

/-- Fully normalised whitespace: stripped at both ends and every internal
whitespace run of length one. -/
def wsNormalized (l : List Char) : Bool :=
  noEdgeWS l && noDoubleWS l

/-- Expressions that contain no capture group (they leave the capture state
untouched). -/
def groupFree : Rx → Bool
  | .eps => true
  | .one _ => true
  | .star _ _ => true
  | .seq a b => groupFree a && groupFree b
  | .alt a b => groupFree a && groupFree b
  | .grp _ _ => false
  | .eos => true
  | .wordB => true

/-- Declarative big-step semantics of one way a regular expression can match:
`Sem r s i j caps caps'` states that `r` can consume `s[i:j]` turning the
capture state `caps` into `caps'`.  `mat` only succeeds along such a
derivation (theorem `mat_sound`). -/
inductive Sem : Rx → List Char → Nat → Nat → Caps → Caps → Prop where
  | eps {s : List Char} {i : Nat} {caps : Caps} : Sem .eps s i i caps caps
  | one {p : Char → Bool} {s : List Char} {i : Nat} {caps : Caps} {c : Char} :
      s[i]? = some c → p c = true → Sem (.one p) s i (i + 1) caps caps
  | star {p : Char → Bool} {lz : Bool} {s : List Char} {i j : Nat} {caps : Caps} :
      i ≤ j → j ≤ s.length →
      (∀ t, i ≤ t → t < j → ∃ c, s[t]? = some c ∧ p c = true) →
      Sem (.star p lz) s i j caps caps
  | seq {a b : Rx} {s : List Char} {i j l : Nat} {c1 c2 c3 : Caps} :
      Sem a s i j c1 c2 → Sem b s j l c2 c3 → Sem (.seq a b) s i l c1 c3
  | altL {a b : Rx} {s : List Char} {i j : Nat} {c1 c2 : Caps} :
      Sem a s i j c1 c2 → Sem (.alt a b) s i j c1 c2
  | altR {a b : Rx} {s : List Char} {i j : Nat} {c1 c2 : Caps} :
      Sem b s i j c1 c2 → Sem (.alt a b) s i j c1 c2
  | grp {n : Nat} {r : Rx} {s : List Char} {i j : Nat} {c1 c2 : Caps} :
      Sem r s i j c1 c2 → Sem (.grp n r) s i j c1 ((n, i, j) :: c2)
  | eos {s : List Char} {i : Nat} {caps : Caps} :
      atEos s i = true → Sem .eos s i i caps caps
  | wordB {s : List Char} {i : Nat} {caps : Caps} :
      atWordBoundary s i = true → Sem .wordB s i i caps caps

/-! ### Soundness of the matcher with respect to the declarative semantics -/

theorem tryPositions_eq_some {α : Type} {k : Nat → Caps → Option α} {caps : Caps}
    {res : α} : ∀ {l : List Nat}, tryPositions k caps l = some res →
    ∃ j ∈ l, k j caps = some res := by
  intro l
  induction l with
  | nil => intro h; simp [tryPositions] at h
  | cons j rest ih =>
    intro h
    simp only [tryPositions] at h
    cases hk : k j caps with
    | some r =>
      rw [hk] at h
      exact ⟨j, List.mem_cons_self _ _, hk.trans h⟩
    | none =>
      rw [hk] at h
      obtain ⟨j', hj', hk'⟩ := ih h
      exact ⟨j', List.mem_cons_of_mem _ hj', hk'⟩

theorem mem_starPositions {i run : Nat} {lz : Bool} {j : Nat}
    (h : j ∈ starPositions i run lz) : i ≤ j ∧ j ≤ i + run := by
  cases lz <;> simp [starPositions] at h <;> omega

theorem countRun_le_length (p : Char → Bool) : ∀ l : List Char, countRun p l ≤ l.length := by
  intro l
  induction l with
  | nil => simp [countRun]
  | cons c t ih =>
    by_cases hp : p c = true
    · simp only [countRun, if_pos hp, List.length_cons]; omega
    · simp [countRun, hp]

theorem countRun_sat (p : Char → Bool) :
    ∀ (l : List Char) (t : Nat), t < countRun p l → ∃ c, l[t]? = some c ∧ p c = true := by
  intro l
  induction l with
  | nil => intro t ht; simp [countRun] at ht
  | cons c tl ih =>
    intro t ht
    by_cases hp : p c = true
    · cases t with
      | zero => exact ⟨c, by simp, hp⟩
      | succ t' =>
        simp only [countRun, if_pos hp] at ht
        simpa using ih t' (by omega)
    · simp [countRun, hp] at ht

theorem mat_sound {α : Type} : ∀ (r : Rx) (s : List Char) (i : Nat) (caps : Caps)
    (k : Nat → Caps → Option α) (res : α), mat r s i caps k = some res → i ≤ s.length →
    ∃ j caps', i ≤ j ∧ j ≤ s.length ∧ Sem r s i j caps caps' ∧ k j caps' = some res := by
  intro r
  induction r with
  | eps =>
    intro s i caps k res h hi
    exact ⟨i, caps, le_refl _, hi, Sem.eps, h⟩
  | one p =>
    intro s i caps k res h hi
    cases hg : s[i]? with
    | none => simp [mat, hg] at h
    | some c =>
      simp only [mat, hg] at h
      by_cases hp : p c = true
      · rw [if_pos hp] at h
        have hlt : i < s.length := (List.getElem?_eq_some.mp hg).1
        exact ⟨i + 1, caps, by omega, by omega, Sem.one hg hp, h⟩
      · rw [if_neg hp] at h; exact absurd h (by simp)
  | star p lz =>
    intro s i caps k res h hi
    simp only [mat] at h
    obtain ⟨j, hj, hk⟩ := tryPositions_eq_some h
    have hb := mem_starPositions hj
    have hrun : countRun p (s.drop i) ≤ s.length - i := by
      simpa using countRun_le_length p (s.drop i)
    refine ⟨j, caps, hb.1, by omega, Sem.star hb.1 (by omega) ?_, hk⟩
    intro t hit htj
    obtain ⟨c, hc, hp⟩ := countRun_sat p (s.drop i) (t - i) (by omega)
    refine ⟨c, ?_, hp⟩
    rw [List.getElem?_drop] at hc
    rwa [Nat.add_sub_cancel' hit] at hc
  | seq a b iha ihb =>
    intro s i caps k res h hi
    simp only [mat] at h
    obtain ⟨j1, c1, hij1, hj1, hsem1, hk1⟩ := iha s i caps _ res h hi
    obtain ⟨j2, c2, hj12, hj2, hsem2, hk2⟩ := ihb s j1 c1 k res hk1 hj1
    exact ⟨j2, c2, le_trans hij1 hj12, hj2, Sem.seq hsem1 hsem2, hk2⟩
  | alt a b iha ihb =>
    intro s i caps k res h hi
    cases hma : mat a s i caps k with
    | some r0 =>
      simp only [mat, hma] at h
      obtain ⟨j, c', hij, hj, hsem, hk⟩ := iha s i caps k res (by rw [hma, h]) hi
      exact ⟨j, c', hij, hj, Sem.altL hsem, hk⟩
    | none =>
      simp only [mat, hma] at h
      obtain ⟨j, c', hij, hj, hsem, hk⟩ := ihb s i caps k res h hi
      exact ⟨j, c', hij, hj, Sem.altR hsem, hk⟩
  | grp n r ih =>
    intro s i caps k res h hi
    simp only [mat] at h
    obtain ⟨j, c', hij, hj, hsem, hk⟩ := ih s i caps _ res h hi
    exact ⟨j, (n, i, j) :: c', hij, hj, Sem.grp hsem, hk⟩
  | eos =>
    intro s i caps k res h hi
    simp only [mat] at h
    by_cases he : atEos s i = true
    · rw [if_pos he] at h; exact ⟨i, caps, le_refl _, hi, Sem.eos he, h⟩
    · rw [if_neg he] at h; exact absurd h (by simp)
  | wordB =>
    intro s i caps k res h hi
    simp only [mat] at h
    by_cases he : atWordBoundary s i = true
    · rw [if_pos he] at h; exact ⟨i, caps, le_refl _, hi, Sem.wordB he, h⟩
    · rw [if_neg he] at h; exact absurd h (by simp)

/-! ### Decoding a search result into a semantic derivation -/

theorem searchCount_some {r : Rx} {s : List Char} :
    ∀ {n i : Nat} {t : Nat × Nat × Caps}, searchCount r s i n = some t →
    ∃ pos, i ≤ pos ∧ pos < i + n ∧
      mat r s pos [] (fun j c => some (pos, j, c)) = some t := by
  intro n
  induction n with
  | zero => intro i t h; simp [searchCount] at h
  | succ n ih =>
    intro i t h
    cases hm : mat r s i [] (fun j c => some (i, j, c)) with
    | some t0 =>
      simp only [searchCount, hm] at h
      exact ⟨i, le_refl _, by omega, by rw [hm, h]⟩
    | none =>
      simp only [searchCount, hm] at h
      obtain ⟨pos, h1, h2, h3⟩ := ih h
      exact ⟨pos, by omega, by omega, h3⟩

theorem searchFrom_sem {r : Rx} {s : List Char} {i a b : Nat} {cs : Caps}
    (h : searchFrom r s i = some (a, b, cs)) :
    i ≤ a ∧ a ≤ b ∧ b ≤ s.length ∧ Sem r s a b [] cs := by
  have hn : 0 < s.length + 1 - i := by
    by_contra hc
    have h0 : s.length + 1 - i = 0 := by omega
    rw [searchFrom, h0] at h
    simp [searchCount] at h
  rw [searchFrom] at h
  obtain ⟨pos, h1, h2, h3⟩ := searchCount_some h
  have hpos : pos ≤ s.length := by omega
  obtain ⟨j, caps', hpj, hjlen, hsem, hk⟩ := mat_sound r s pos [] _ _ h3 hpos
  simp only [Option.some.injEq, Prod.mk.injEq] at hk
  obtain ⟨e1, e2, e3⟩ := hk
  subst e1; subst e2; subst e3
  exact ⟨h1, hpj, hjlen, hsem⟩

/-- A successful run of the source's pattern loop produces a match object for
one of the five patterns, with the pattern's group count, witnessed by a
semantic derivation. -/
theorem tryPatterns_cases {name : List Char} {m : PyMatch}
    (h : tryPatterns patternList name = some m) :
    m.s = name ∧
      ((m.ngroups = 2 ∧ (Sem pat1 name m.ms m.me [] m.caps ∨
                         Sem pat3 name m.ms m.me [] m.caps ∨
                         Sem pat4 name m.ms m.me [] m.caps ∨
                         Sem pat5 name m.ms m.me [] m.caps)) ∨
       (m.ngroups = 3 ∧ Sem pat2 name m.ms m.me [] m.caps)) := by
  simp only [patternList, tryPatterns] at h
  cases h1 : searchFrom pat1 name 0 with
  | some t =>
    obtain ⟨a, b, cs⟩ := t
    rw [h1] at h
    cases h
    exact ⟨rfl, .inl ⟨rfl, .inl (searchFrom_sem h1).2.2.2⟩⟩
  | none =>
    rw [h1] at h
    cases h2 : searchFrom pat2 name 0 with
    | some t =>
      obtain ⟨a, b, cs⟩ := t
      rw [h2] at h
      cases h
      exact ⟨rfl, .inr ⟨rfl, (searchFrom_sem h2).2.2.2⟩⟩
    | none =>
      rw [h2] at h
      cases h3 : searchFrom pat3 name 0 with
      | some t =>
        obtain ⟨a, b, cs⟩ := t
        rw [h3] at h
        cases h
        exact ⟨rfl, .inl ⟨rfl, .inr (.inl (searchFrom_sem h3).2.2.2)⟩⟩
      | none =>
        rw [h3] at h
        cases h4 : searchFrom pat4 name 0 with
        | some t =>
          obtain ⟨a, b, cs⟩ := t
          rw [h4] at h
          cases h
          exact ⟨rfl, .inl ⟨rfl, .inr (.inr (.inl (searchFrom_sem h4).2.2.2))⟩⟩
        | none =>
          rw [h4] at h
          cases h5 : searchFrom pat5 name 0 with
          | some t =>
            obtain ⟨a, b, cs⟩ := t
            rw [h5] at h
            cases h
            exact ⟨rfl, .inl ⟨rfl, .inr (.inr (.inr (searchFrom_sem h5).2.2.2))⟩⟩
          | none => rw [h5] at h; cases h

/-! ### Capture analysis of the five patterns -/

theorem sem_groupFree : ∀ {r : Rx} {s : List Char} {i j : Nat} {c1 c2 : Caps},
    Sem r s i j c1 c2 → groupFree r = true → c2 = c1 := by
  intro r s i j c1 c2 h
  induction h with
  | eps => intro _; rfl
  | one _ _ => intro _; rfl
  | star _ _ _ => intro _; rfl
  | seq h1 h2 ih1 ih2 =>
    intro hf
    simp only [groupFree, Bool.and_eq_true] at hf
    rw [ih2 hf.2, ih1 hf.1]
  | altL h ih =>
    intro hf
    simp only [groupFree, Bool.and_eq_true] at hf
    exact ih hf.1
  | altR h ih =>
    intro hf
    simp only [groupFree, Bool.and_eq_true] at hf
    exact ih hf.2
  | grp h ih => intro hf; simp [groupFree] at hf
  | eos _ => intro _; rfl
  | wordB _ => intro _; rfl

/-- What a `+` repetition of a class can do: it keeps the capture state, it
consumes at least one character, and every consumed character satisfies the
class. -/
theorem sem_plus {p : Char → Bool} {lz : Bool} {s : List Char} {x y : Nat}
    {c1 c2 : Caps} (h : Sem (plusP p lz) s x y c1 c2) :
    c2 = c1 ∧ x < y ∧ x < s.length ∧
      (∀ t, x ≤ t → t < y → ∃ c, s[t]? = some c ∧ p c = true) := by
  unfold plusP at h
  cases h with
  | seq h1 h2 =>
    cases h1 with
    | one hg hp =>
      cases h2 with
      | star hxy hylen hsat =>
        refine ⟨rfl, by omega, (List.getElem?_eq_some.mp hg).1, ?_⟩
        intro t hxt hty
        rcases Nat.lt_or_ge t (x + 1) with hlt | hge
        · have : t = x := by omega
          subst this
          exact ⟨_, hg, hp⟩
        · exact hsat t hge hty

theorem sem_pat1_caps {s : List Char} {a b : Nat} {cs : Caps}
    (h : Sem pat1 s a b [] cs) :
    ∃ u v x y, cs = [(2, x, y), (1, u, v)] ∧ x < y ∧ x < s.length := by
  simp only [pat1, seqs, List.foldr_cons, List.foldr_nil, litC] at h
  cases h with
  | seq hBr h1 =>
    have hc0 := sem_groupFree hBr (by rfl)
    subst hc0
    cases h1 with
    | seq hDots h2 =>
      have hc1 := sem_groupFree hDots (by rfl)
      subst hc1
      cases h2 with
      | seq hBr2 h3 =>
        have hc2 := sem_groupFree hBr2 (by rfl)
        subst hc2
        cases h3 with
        | seq hSp1 h4 =>
          have hc3 := sem_groupFree hSp1 (by rfl)
          subst hc3
          cases h4 with
          | seq hG1 h5 =>
            cases hG1 with
            | grp hX =>
              have hXc := (sem_plus hX).1
              subst hXc
              cases h5 with
              | seq hSp2 h6 =>
                have hc4 := sem_groupFree hSp2 (by rfl)
                subst hc4
                cases h6 with
                | seq hHy h7 =>
                  have hc5 := sem_groupFree hHy (by rfl)
                  subst hc5
                  cases h7 with
                  | seq hSp3 h8 =>
                    have hc6 := sem_groupFree hSp3 (by rfl)
                    subst hc6
                    cases h8 with
                    | seq hG2 hEps =>
                      cases hEps
                      cases hG2 with
                      | grp hD =>
                        obtain ⟨hDc, hxy, hxlen, _⟩ := sem_plus hD
                        subst hDc
                        exact ⟨_, _, _, _, rfl, hxy, hxlen⟩

theorem sem_pat3_caps {s : List Char} {a b : Nat} {cs : Caps}
    (h : Sem pat3 s a b [] cs) :
    ∃ u v x y, cs = [(2, x, y), (1, u, v)] ∧ x < y ∧ x < s.length := by
  simp only [pat3, seqs, List.foldr_cons, List.foldr_nil] at h
  cases h with
  | seq hG1 h1 =>
    cases hG1 with
    | grp hX =>
      have hXc := (sem_plus hX).1
      subst hXc
      cases h1 with
      | seq hSp1 h2 =>
        have hc1 := sem_groupFree hSp1 (by rfl)
        subst hc1
        cases h2 with
        | seq hWord h3 =>
          have hc2 := sem_groupFree hWord (by rfl)
          subst hc2
          cases h3 with
          | seq hSp2 h4 =>
            have hc3 := sem_groupFree hSp2 (by rfl)
            subst hc3
            cases h4 with
            | seq hG2 hEps =>
              cases hEps
              cases hG2 with
              | grp hD =>
                obtain ⟨hDc, hxy, hxlen, _⟩ := sem_plus hD
                subst hDc
                exact ⟨_, _, _, _, rfl, hxy, hxlen⟩

theorem sem_pat4_caps {s : List Char} {a b : Nat} {cs : Caps}
    (h : Sem pat4 s a b [] cs) :
    ∃ u v x y, cs = [(2, x, y), (1, u, v)] ∧ x < y ∧ x < s.length := by
  simp only [pat4, seqs, List.foldr_cons, List.foldr_nil, litC] at h
  cases h with
  | seq hG1 h1 =>
    cases hG1 with
    | grp hX =>
      have hXc := (sem_plus hX).1
      subst hXc
      cases h1 with
      | seq hS1 h2 =>
        have hc1 := sem_groupFree hS1 (by rfl)
        subst hc1
        cases h2 with
        | seq hHy h3 =>
          have hc2 := sem_groupFree hHy (by rfl)
          subst hc2
          cases h3 with
          | seq hS2 h4 =>
            have hc3 := sem_groupFree hS2 (by rfl)
            subst hc3
            cases h4 with
            | seq hG2 hEps =>
              cases hEps
              cases hG2 with
              | grp hD =>
                obtain ⟨hDc, hxy, hxlen, _⟩ := sem_plus hD
                subst hDc
                exact ⟨_, _, _, _, rfl, hxy, hxlen⟩

theorem sem_pat5_caps {s : List Char} {a b : Nat} {cs : Caps}
    (h : Sem pat5 s a b [] cs) :
    ∃ u v x y, cs = [(2, x, y), (1, u, v)] ∧ x < y ∧ x < s.length := by
  simp only [pat5, seqs, List.foldr_cons, List.foldr_nil] at h
  cases h with
  | seq hG1 h1 =>
    cases hG1 with
    | grp hX =>
      have hXc := (sem_plus hX).1
      subst hXc
      cases h1 with
      | seq hS1 h2 =>
        have hc1 := sem_groupFree hS1 (by rfl)
        subst hc1
        cases h2 with
        | seq hG2 h3 =>
          cases hG2 with
          | grp hD =>
            obtain ⟨hDc, hxy, hxlen, _⟩ := sem_plus hD
            subst hDc
            cases h3 with
            | seq hTail hEps =>
              cases hEps
              have hc2 := sem_groupFree hTail (by rfl)
              subst hc2
              exact ⟨_, _, _, _, rfl, hxy, hxlen⟩

theorem sem_pat2_caps {s : List Char} {a b : Nat} {cs : Caps}
    (h : Sem pat2 s a b [] cs) :
    ∃ u v, capLookup 1 cs = some (u, v) := by
  simp only [pat2, seqs, List.foldr_cons, List.foldr_nil, litC] at h
  cases h with
  | seq hG1 h1 =>
    cases hG1 with
    | grp hX =>
      have hXc := (sem_plus hX).1
      subst hXc
      cases h1 with
      | seq hDot h2 =>
        have hc1 := sem_groupFree hDot (by rfl)
        subst hc1
        cases h2 with
        | seq hAlt hEps =>
          cases hEps
          cases hAlt with
          | altL hL =>
            cases hL with
            | seq hS h3 =>
              have hc2 := sem_groupFree hS (by rfl)
              subst hc2
              cases h3 with
              | seq hDg h4 =>
                have hc3 := sem_groupFree hDg (by rfl)
                subst hc3
                cases h4 with
                | seq hE h5 =>
                  have hc4 := sem_groupFree hE (by rfl)
                  subst hc4
                  cases h5 with
                  | seq hG2 hEps2 =>
                    cases hEps2
                    cases hG2 with
                    | grp hD =>
                      have hDc := (sem_plus hD).1
                      subst hDc
                      exact ⟨_, _, rfl⟩
          | altR hR =>
            cases hR with
            | seq hW h3 =>
              have hc2 := sem_groupFree hW (by rfl)
              subst hc2
              cases h3 with
              | seq hDot2 h4 =>
                have hc3 := sem_groupFree hDot2 (by rfl)
                subst hc3
                cases h4 with
                | seq hG3 hEps2 =>
                  cases hEps2
                  cases hG3 with
                  | grp hD =>
                    have hDc := (sem_plus hD).1
                    subst hDc
                    exact ⟨_, _, rfl⟩

/-- Nonempty capture: the substring of a span that starts inside the string
and has positive width is nonempty. -/
theorem capture_nonempty {s : List Char} {x y : Nat} (hxy : x < y)
    (hxlen : x < s.length) : ((s.drop x).take (y - x)).isEmpty = false := by
  rw [List.isEmpty_eq_false]
  intro hnil
  have hlen := congrArg List.length hnil
  simp only [List.length_take, List.length_drop, List.length_nil] at hlen
  omega

/-- C2.  Totality of the inference operation: every input (the empty string
included) produces a result, and no evaluation path raises an error — in
particular, when one of the two-group rules matches, its group 2 holds a
nonempty digit string, so the `group(2) or group(3)` expression
short-circuits before the out-of-range `group(3)` access could fire. -/
theorem claim_C2_totality :
    ∀ f : List Char, ∃ r, extract_anime_info f = Except.ok r := by
  intro f
  cases htp : tryPatterns patternList ((pySplitExt f).1) with
  | none => exact ⟨((pySplitExt f).1, none), by simp only [extract_anime_info, htp]⟩
  | some m =>
    obtain ⟨hs, hcase⟩ := tryPatterns_cases htp
    rcases hcase with ⟨hng, hsem⟩ | ⟨hng, hsem⟩
    · have hcaps : ∃ u v x y, m.caps = [(2, x, y), (1, u, v)] ∧ x < y ∧
          x < m.s.length := by
        rw [hs]
        rcases hsem with h | h | h | h
        · exact sem_pat1_caps h
        · exact sem_pat3_caps h
        · exact sem_pat4_caps h
        · exact sem_pat5_caps h
      obtain ⟨u, v, x, y, hceq, hxy, hxlen⟩ := hcaps
      have hg1 : pyGroup m 1 = .ok (some ((m.s.drop u).take (v - u))) := by
        simp [pyGroup, hng, hceq, capLookup]
      have hg2 : pyGroup m 2 = .ok (some ((m.s.drop x).take (y - x))) := by
        simp [pyGroup, hng, hceq, capLookup]
      have hd := capture_nonempty hxy hxlen
      have hep : (if optStrTruthy (some ((m.s.drop x).take (y - x)))
          then Except.ok (ε := PyErr) (some ((m.s.drop x).take (y - x)))
          else pyGroup m 3) = .ok (some ((m.s.drop x).take (y - x))) := by
        simp [optStrTruthy, hd]
      refine ⟨(pyStrip (pySub tagRe [] (pyStrip (pySub wsRe [' ']
        (pySub sepRe [' '] (pyStrip ((m.s.drop u).take (v - u))))))),
        some ((m.s.drop x).take (y - x))), ?_⟩
      simp only [extract_anime_info, htp, hg1, hg2, hep]
    · obtain ⟨u, v, hl1⟩ := sem_pat2_caps hsem
      have hg1 : pyGroup m 1 = .ok (some ((m.s.drop u).take (v - u))) := by
        simp [pyGroup, hng, hl1]
      have hg2 : pyGroup m 2 =
          .ok ((capLookup 2 m.caps).map (fun ab => (m.s.drop ab.1).take (ab.2 - ab.1))) := by
        simp [pyGroup, hng]
      have hg3 : pyGroup m 3 =
          .ok ((capLookup 3 m.caps).map (fun ab => (m.s.drop ab.1).take (ab.2 - ab.1))) := by
        simp [pyGroup, hng]
      set g2v := (capLookup 2 m.caps).map (fun ab => (m.s.drop ab.1).take (ab.2 - ab.1)) with hg2v
      set g3v := (capLookup 3 m.caps).map (fun ab => (m.s.drop ab.1).take (ab.2 - ab.1)) with hg3v
      have hep : (if optStrTruthy g2v then Except.ok (ε := PyErr) g2v else pyGroup m 3) =
          .ok (if optStrTruthy g2v then g2v else g3v) := by
        cases hob : optStrTruthy g2v
        · simp [hob, hg3]
        · simp [hob]
      refine ⟨(pyStrip (pySub tagRe [] (pyStrip (pySub wsRe [' ']
        (pySub sepRe [' '] (pyStrip ((m.s.drop u).take (v - u))))))),
        if optStrTruthy g2v then g2v else g3v), ?_⟩
      simp only [extract_anime_info, htp, hg1, hg2, hep]

/-! ### The reserved-character substitution is a character filter -/

theorem mat_one_cases {p : Char → Bool} {s : List Char} {t : Nat}
    {r : Nat × Nat × Caps}
    (h : mat (.one p) s t [] (fun j c => some (t, j, c)) = some r) :
    r = (t, t + 1, []) ∧ ∃ c, s[t]? = some c ∧ p c = true := by
  cases hg : s[t]? with
  | none => simp [mat, hg] at h
  | some c =>
    simp only [mat, hg] at h
    by_cases hp : p c = true
    · rw [if_pos hp] at h
      exact ⟨by injection h with h'; exact h'.symm, c, rfl, hp⟩
    · rw [if_neg hp] at h
      exact absurd h (by simp)

theorem mat_one_none_inv {p : Char → Bool} {s : List Char} {t : Nat}
    (h : mat (.one p) s t [] (fun j c => some (t, j, c)) = none) :
    ∀ c, s[t]? = some c → p c = false := by
  intro c hg
  by_contra hp
  have hp' : p c = true := by revert hp; cases p c <;> simp
  simp [mat, hg, hp'] at h

theorem searchCount_none_inv {r : Rx} {s : List Char} :
    ∀ {n i : Nat}, searchCount r s i n = none →
    ∀ d, d < n → mat r s (i + d) [] (fun j c => some (i + d, j, c)) = none := by
  intro n
  induction n with
  | zero => intro i _ d hd; omega
  | succ n ih =>
    intro i h d hd
    cases hm : mat r s i [] (fun j c => some (i, j, c)) with
    | some t => simp [searchCount, hm] at h
    | none =>
      simp only [searchCount, hm] at h
      cases d with
      | zero => simpa using hm
      | succ d' =>
        have := ih h d' (by omega)
        have he : i + 1 + d' = i + (d' + 1) := by omega
        rwa [he] at this

theorem searchCount_first {r : Rx} {s : List Char} :
    ∀ {n i : Nat} {t : Nat × Nat × Caps}, searchCount r s i n = some t →
    ∃ pos, i ≤ pos ∧ pos < i + n ∧
      mat r s pos [] (fun j c => some (pos, j, c)) = some t ∧
      ∀ q, i ≤ q → q < pos → mat r s q [] (fun j c => some (q, j, c)) = none := by
  intro n
  induction n with
  | zero => intro i t h; simp [searchCount] at h
  | succ n ih =>
    intro i t h
    cases hm : mat r s i [] (fun j c => some (i, j, c)) with
    | some t0 =>
      simp only [searchCount, hm] at h
      refine ⟨i, le_refl _, by omega, by rw [hm, h], ?_⟩
      intro q h1 h2
      omega
    | none =>
      simp only [searchCount, hm] at h
      obtain ⟨pos, h1, h2, h3, h4⟩ := ih h
      refine ⟨pos, by omega, by omega, h3, ?_⟩
      intro q hq1 hq2
      rcases Nat.lt_or_ge q (i + 1) with hc | hc
      · have : q = i := by omega
        subst this
        exact hm
      · exact h4 q hc hq2

theorem searchFrom_reserved_char {s : List Char} {i a b : Nat} {cs : Caps}
    (h : searchFrom reservedRe s i = some (a, b, cs)) :
    i ≤ a ∧ a < s.length ∧ b = a + 1 ∧
      (∃ c, s[a]? = some c ∧ reservedChar c = true) ∧
      (∀ q, i ≤ q → q < a → ∀ c, s[q]? = some c → reservedChar c = false) := by
  rw [searchFrom] at h
  obtain ⟨pos, h1, h2, h3, h4⟩ := searchCount_first h
  obtain ⟨ht, c, hgc, hpc⟩ := mat_one_cases h3
  injection ht with ht1 ht'
  injection ht' with ht2 ht3
  subst ht1; subst ht2
  refine ⟨h1, (List.getElem?_eq_some.mp hgc).1, rfl, ⟨c, hgc, hpc⟩, ?_⟩
  intro q hq1 hq2 c' hg'
  exact mat_one_none_inv (h4 q hq1 hq2) c' hg'

theorem searchFrom_reserved_none {s : List Char} {i : Nat}
    (h : searchFrom reservedRe s i = none) :
    ∀ q, i ≤ q → ∀ c, s[q]? = some c → reservedChar c = false := by
  intro q hq c hg
  have hqlen : q < s.length := (List.getElem?_eq_some.mp hg).1
  rw [searchFrom] at h
  have := searchCount_none_inv h (q - i) (by omega)
  rw [Nat.add_sub_cancel' hq] at this
  exact mat_one_none_inv this c hg

theorem mem_take_drop_index {s : List Char} {i a : Nat} {c : Char}
    (hc : c ∈ (s.drop i).take (a - i)) :
    ∃ q, i ≤ q ∧ q < a ∧ s[q]? = some c := by
  obtain ⟨d, hd⟩ := List.mem_iff_getElem?.mp hc
  have hdlt : d < a - i := by
    have := (List.getElem?_eq_some.mp hd).1
    have hle := List.length_take_le (a - i) (s.drop i)
    simp only [List.length_take] at this ⊢
    omega
  rw [List.getElem?_take_of_lt hdlt, List.getElem?_drop] at hd
  exact ⟨i + d, by omega, by omega, hd⟩

theorem pySubAux_reserved : ∀ (fuel : Nat) (s : List Char) (i : Nat),
    s.length - i < fuel →
    pySubAux reservedRe [] s i fuel = (s.drop i).filter (fun c => !reservedChar c) := by
  intro fuel
  induction fuel with
  | zero => intro s i h; omega
  | succ fuel ih =>
    intro s i h
    cases hsf : searchFrom reservedRe s i with
    | none =>
      simp only [pySubAux, hsf]
      refine (List.filter_eq_self.mpr ?_).symm
      intro c hc
      obtain ⟨d, hd⟩ := List.mem_iff_getElem?.mp hc
      rw [List.getElem?_drop] at hd
      simp [searchFrom_reserved_none hsf (i + d) (by omega) c hd]
    | some t =>
      obtain ⟨a, b, cs⟩ := t
      obtain ⟨hia, halen, hb, ⟨c0, hc0, hres0⟩, hclean⟩ := searchFrom_reserved_char hsf
      subst hb
      simp only [pySubAux, hsf, if_pos (by omega : a < a + 1)]
      rw [ih s (a + 1) (by omega)]
      have hsplit : s.drop i =
          (s.drop i).take (a - i) ++ (s.get ⟨a, halen⟩ :: s.drop (a + 1)) := by
        conv_lhs => rw [← List.take_append_drop (a - i) (s.drop i)]
        rw [List.drop_drop, Nat.add_sub_cancel' hia,
          List.drop_eq_getElem_cons halen]
        simp
      conv_rhs => rw [hsplit]
      rw [List.filter_append]
      have hgc : reservedChar (s.get ⟨a, halen⟩) = true := by
        have : s[a]? = some (s.get ⟨a, halen⟩) := by simp
        rw [this] at hc0
        injection hc0 with hc0'
        rw [hc0']
        exact hres0
      rw [List.filter_cons_of_neg (by simpa using hgc)]
      have hpre : (s.drop i).take (a - i) =
          ((s.drop i).take (a - i)).filter (fun c => !reservedChar c) := by
        refine (List.filter_eq_self.mpr ?_).symm
        intro c hc
        obtain ⟨q, hq1, hq2, hq3⟩ := mem_take_drop_index hc
        simp [hclean q hq1 hq2 c hq3]
      conv_rhs => rw [← hpre]
      simp

/-- `re.sub` of the reserved-character class with empty replacement deletes
exactly the reserved characters. -/
theorem pySub_reserved_eq_filter (s : List Char) :
    pySub reservedRe [] s = s.filter (fun c => !reservedChar c) := by
  have := pySubAux_reserved (s.length + 2) s 0 (by omega)
  simpa using this

/-! ### `str.zfill` on digit strings is plain left padding -/

theorem pyZfill_digits {e : List Char} (hne : e ≠ [])
    (hdig : ∀ c ∈ e, c.isDigit = true) :
    pyZfill 2 e = if e.length < 2 then List.replicate (2 - e.length) '0' ++ e else e := by
  unfold pyZfill
  by_cases h2 : 2 ≤ e.length
  · rw [if_pos h2, if_neg (by omega)]
  · rw [if_neg h2, if_pos (by omega)]
    cases e with
    | nil => exact absurd rfl hne
    | cons c rest =>
      have hc := hdig c (List.mem_cons_self _ _)
      have hplus : c ≠ '+' := by
        intro h; subst h; exact absurd hc (by decide)
      have hminus : c ≠ '-' := by
        intro h; subst h; exact absurd hc (by decide)
      have hsign : (c == '+' || c == '-') = false := by simp [hplus, hminus]
      simp [hsign]

/-! ### Claims about `generate_new_filename` -/

/-- C3.  Output format of the filename builder: with a (nonempty digit
string) episode the result is `"<name> - Episode <pad2 episode><ext>"` with
the reserved characters removed, the padding being a left fill with `'0'` to
width 2; without an episode it is `"<name><ext>"` with the reserved
characters removed; in particular `("Show", "5", "x.mkv")` gives
`"Show - Episode 05.mkv"` and `("Show", none, "x.mkv")` gives `"Show.mkv"`. -/
theorem claim_C3_format :
    (∀ (name ep orig : List Char), ep ≠ [] → (∀ c ∈ ep, c.isDigit = true) →
      generate_new_filename name (some ep) orig =
        (name ++ " - Episode ".data ++
          (if ep.length < 2 then List.replicate (2 - ep.length) '0' ++ ep else ep) ++
          (pySplitExt orig).2).filter (fun c => !reservedChar c)) ∧
    (∀ name orig : List Char, generate_new_filename name none orig =
        (name ++ (pySplitExt orig).2).filter (fun c => !reservedChar c)) ∧
    generate_new_filename "Show".data (some "5".data) "x.mkv".data =
      "Show - Episode 05.mkv".data ∧
    generate_new_filename "Show".data none "x.mkv".data = "Show.mkv".data := by
  refine ⟨?_, ?_, by decide, by decide⟩
  · intro name ep orig hne hdig
    have hie : ep.isEmpty = false := by simpa using hne
    simp only [generate_new_filename, hie, Bool.false_eq_true, if_false,
      pySub_reserved_eq_filter, pyZfill_digits hne hdig]
  · intro name orig
    simp only [generate_new_filename, pySub_reserved_eq_filter]

/-- C3 witness: the format theorem applied at `("Show", "5", "x.mkv")`. -/
theorem claim_C3_witness :
    generate_new_filename "Show".data (some "5".data) "x.mkv".data =
      ("Show".data ++ " - Episode ".data ++
        (if ("5".data).length < 2 then
          List.replicate (2 - ("5".data).length) '0' ++ "5".data else "5".data) ++
        (pySplitExt "x.mkv".data).2).filter (fun c => !reservedChar c) :=
  claim_C3_format.1 "Show".data "5".data "x.mkv".data (by decide) (by decide)

/-- C4.  The builder's output never contains a reserved character (they are
deleted, nothing substituted), and the removal step is idempotent: a string
free of reserved characters passes through the removal unchanged. -/
theorem claim_C4_reserved :
    (∀ (name : List Char) (ep : Option (List Char)) (orig : List Char) (c : Char),
      c ∈ generate_new_filename name ep orig → reservedChar c = false) ∧
    (∀ s : List Char, (∀ c ∈ s, reservedChar c = false) →
      pySub reservedRe [] s = s) := by
  constructor
  · intro name ep orig c hc
    simp only [generate_new_filename, pySub_reserved_eq_filter] at hc
    have := (List.mem_filter.mp hc).2
    simpa using this
  · intro s hs
    rw [pySub_reserved_eq_filter]
    exact List.filter_eq_self.mpr (fun a ha => by simp [hs a ha])

/-- C4 witness: the idempotence half applied to a concrete clean string. -/
theorem claim_C4_witness :
    pySub reservedRe [] "clean name.mkv".data = "clean name.mkv".data :=
  claim_C4_reserved.2 "clean name.mkv".data (by decide)

/-- C9.  The builder is deterministic in its three arguments, and depends on
the original filename only through its extracted extension. -/
theorem claim_C9_extension_dependence :
    (∀ (name : List Char) (ep : Option (List Char)) (f1 f2 : List Char),
      (pySplitExt f1).2 = (pySplitExt f2).2 →
      generate_new_filename name ep f1 = generate_new_filename name ep f2) ∧
    (∀ (n1 : List Char) (e1 : Option (List Char)) (f1 n2 : List Char)
      (e2 : Option (List Char)) (f2 : List Char), n1 = n2 → e1 = e2 → f1 = f2 →
      generate_new_filename n1 e1 f1 = generate_new_filename n2 e2 f2) := by
  constructor
  · intro name ep f1 f2 h
    unfold generate_new_filename
    rw [h]
  · intro n1 e1 f1 n2 e2 f2 h1 h2 h3
    rw [h1, h2, h3]

/-- C9 witness: two filenames with the same `.mkv` extension give the same
output. -/
theorem claim_C9_witness :
    generate_new_filename "Show".data (some "7".data) "a.mkv".data =
      generate_new_filename "Show".data (some "7".data) "b.mkv".data :=
  claim_C9_extension_dependence.1 "Show".data (some "7".data) "a.mkv".data
    "b.mkv".data (by decide)

/-- C10.  An empty-string episode is falsy in the source's `if episode:`
test, so the builder behaves exactly as with no episode: no `"00"` padding
appears, the result is `"<name><ext>"` with reserved characters removed. -/
theorem claim_C10_empty_episode :
    ∀ name orig : List Char,
      generate_new_filename name (some []) orig =
        (name ++ (pySplitExt orig).2).filter (fun c => !reservedChar c) ∧
      generate_new_filename name (some []) orig =
        generate_new_filename name none orig := by
  intro name orig
  constructor
  · simp [generate_new_filename, pySub_reserved_eq_filter]
  · simp [generate_new_filename]

/-! ### Claims about `extract_anime_info` on concrete scenarios -/

/-- C1.  End-to-end scenario: for
`"[SubGroup] Great Anime - 05 [720p].mkv"` the inference returns
`("Great Anime", "05")` — rule 1 matches its stem — and rebuilding with the
original filename returns `"Great Anime - Episode 05.mkv"`. -/
theorem claim_C1_scenario :
    extract_anime_info "[SubGroup] Great Anime - 05 [720p].mkv".data =
      .ok ("Great Anime".data, some "05".data) ∧
    (searchFrom pat1
      (pySplitExt "[SubGroup] Great Anime - 05 [720p].mkv".data).1 0).isSome = true ∧
    generate_new_filename "Great Anime".data (some "05".data)
      "[SubGroup] Great Anime - 05 [720p].mkv".data =
      "Great Anime - Episode 05.mkv".data :=
  ⟨by decide, by decide, by decide⟩

/-- C5.  Fallback: whenever no rule matches the stem, the inference returns
the stem verbatim with no episode; in particular on `"randomfile.mkv"`. -/
theorem claim_C5_fallback :
    (∀ f : List Char, tryPatterns patternList (pySplitExt f).1 = none →
      extract_anime_info f = .ok ((pySplitExt f).1, none)) ∧
    extract_anime_info "randomfile.mkv".data = .ok ("randomfile".data, none) := by
  constructor
  · intro f h
    simp only [extract_anime_info, h]
  · decide

/-- C5 witness: the fallback equation applied to a concrete unmatched
filename. -/
theorem claim_C5_witness :
    tryPatterns patternList (pySplitExt "archive.webm".data).1 = none ∧
    extract_anime_info "archive.webm".data =
      .ok ((pySplitExt "archive.webm".data).1, none) := by
  have h : tryPatterns patternList (pySplitExt "archive.webm".data).1 = none := by
    decide
  exact ⟨h, claim_C5_fallback.1 "archive.webm".data h⟩

/-! ### C6: the non-empty-name invariant fails on the empty filename -/

/-- C6 counterexample: the inference on the empty filename returns an empty
`seriesName` (the fallback hands back the empty stem verbatim), refuting the
claim that the series name is never empty. -/
theorem claim_C6_counterexample :
    extract_anime_info "".data = .ok ([], none) ∧
    ¬(∀ (f : List Char) (r : List Char × Option (List Char)),
        extract_anime_info f = Except.ok r → r.1 ≠ []) := by
  refine ⟨by decide, fun h => ?_⟩
  exact h "".data ([], none) (by decide) rfl

/-- C6 amended: when no rule matches, the series name is the stem verbatim,
hence nonempty whenever the stem is nonempty; a matched rule may still
produce an empty name. -/
theorem claim_C6_amended :
    ∀ f : List Char, tryPatterns patternList (pySplitExt f).1 = none →
      (pySplitExt f).1 ≠ [] →
      ∀ r, extract_anime_info f = .ok r → r.1 ≠ [] := by
  intro f hm hne r hok
  simp only [extract_anime_info, hm] at hok
  injection hok with h'
  subst h'
  exact hne

/-- C6 witness: the amended statement applied to `"video.mp4"`. -/
theorem claim_C6_witness :
    tryPatterns patternList (pySplitExt "video.mp4".data).1 = none ∧
    ("video".data, (none : Option (List Char))).1 ≠ [] := by
  have h1 : tryPatterns patternList (pySplitExt "video.mp4".data).1 = none := by
    decide
  have h2 : (pySplitExt "video.mp4".data).1 ≠ [] := by decide
  have h3 : extract_anime_info "video.mp4".data = .ok ("video".data, none) := by
    decide
  exact ⟨h1, claim_C6_amended "video.mp4".data h1 h2 ("video".data, none) h3⟩

/-! ### C7: whitespace normalisation of the extracted name -/

/-- The result of `str.strip` has no whitespace at either end. -/
theorem noEdgeWS_pyStrip (l : List Char) : noEdgeWS (pyStrip l) = true := by
  unfold pyStrip noEdgeWS
  set A := l.dropWhile pyIsSpace with hA
  set B := A.reverse.dropWhile pyIsSpace with hB
  have hhead : ∀ x, B.head? = some x → pyIsSpace x = false := by
    intro x hx
    have h0 := List.head?_dropWhile_not pyIsSpace A.reverse
    rw [← hB, hx] at h0
    exact h0
  have hlast : ∀ x, B.getLast? = some x → pyIsSpace x = false := by
    intro x hx
    have h1 : A.reverse.getLast? = some x := by
      conv_lhs => rw [← List.takeWhile_append_dropWhile (p := pyIsSpace) (l := A.reverse)]
      rw [List.getLast?_append, ← hB, hx]
      rfl
    have h2 : A.head? = some x := by
      rw [← List.getLast?_reverse]
      exact h1
    have h0 := List.head?_dropWhile_not pyIsSpace l
    rw [← hA, h2] at h0
    exact h0
  rw [List.head?_reverse, List.getLast?_reverse, Bool.and_eq_true]
  constructor
  · cases hg : B.getLast? with
    | none => simp
    | some x => simp [hlast x hg]
  · cases hh : B.head? with
    | none => simp
    | some x => simp [hhead x hh]

/-- C7 counterexample: on `"Anime 720p Name - 01.mkv"` rule 4 matches, the
quality tag `720p` is removed after whitespace was collapsed, and the
returned series name `"Anime  Name"` contains a double space — the
whitespace-normalisation invariant fails. -/
theorem claim_C7_counterexample :
    extract_anime_info "Anime 720p Name - 01.mkv".data =
      .ok ("Anime  Name".data, some "01".data) ∧
    wsNormalized "Anime  Name".data = false :=
  ⟨by decide, by decide⟩

/-- C7 amended: whenever some rule matches, the returned series name has no
leading or trailing whitespace (it ends with a `strip`); internal runs of
whitespace can however exceed a single space when a quality tag was removed,
and when no rule matches the stem is returned with its whitespace intact. -/
theorem claim_C7_amended :
    ∀ (f : List Char) (r : List Char × Option (List Char)),
      (tryPatterns patternList (pySplitExt f).1).isSome = true →
      extract_anime_info f = .ok r → noEdgeWS r.1 = true := by
  intro f r hm hok
  cases htp : tryPatterns patternList (pySplitExt f).1 with
  | none => rw [htp] at hm; simp at hm
  | some m =>
    simp only [extract_anime_info, htp] at hok
    cases hg1 : pyGroup m 1 with
    | error e => simp only [hg1] at hok; simp at hok
    | ok g1 =>
      cases g1 with
      | none => simp only [hg1] at hok; simp at hok
      | some raw =>
        simp only [hg1] at hok
        cases hg2 : pyGroup m 2 with
        | error e => simp only [hg2] at hok; simp at hok
        | ok g2 =>
          simp only [hg2] at hok
          cases hep : (if optStrTruthy g2 then Except.ok g2 else pyGroup m 3) with
          | error e => simp only [hep] at hok; simp at hok
          | ok episode =>
            simp only [hep] at hok
            injection hok with h'
            subst h'
            exact noEdgeWS_pyStrip _

/-- C7 witness: the amended statement applied to `"Cool Show - 07.avi"`,
whose extracted name `"Cool Show"` indeed has clean edges. -/
theorem claim_C7_witness :
    (tryPatterns patternList (pySplitExt "Cool Show - 07.avi".data).1).isSome = true ∧
    noEdgeWS "Cool Show".data = true := by
  have h1 : (tryPatterns patternList
      (pySplitExt "Cool Show - 07.avi".data).1).isSome = true := by decide
  have h2 : extract_anime_info "Cool Show - 07.avi".data =
      .ok ("Cool Show".data, some "07".data) := by decide
  exact ⟨h1, claim_C7_amended "Cool Show - 07.avi".data
    ("Cool Show".data, some "07".data) h1 h2⟩

/-! ### The last-index scan and the extension split -/

theorem lastIdxAux_append (p : Char → Bool) (c : Char) :
    ∀ (l : List Char) (i : Nat) (acc : Int),
      lastIdxAux p (l ++ [c]) i acc =
        if p c then ((i + l.length : Nat) : Int) else lastIdxAux p l i acc := by
  intro l
  induction l with
  | nil =>
    intro i acc
    simp [lastIdxAux]
  | cons d t ih =>
    intro i acc
    simp only [List.cons_append, lastIdxAux, List.append_eq]
    rw [ih]
    by_cases hp : p c = true
    · rw [if_pos hp, if_pos hp]
      norm_cast
      simp only [List.length_cons]
      omega
    · rw [if_neg hp, if_neg hp]

theorem lastIndexOf_append (p : Char → Bool) (l : List Char) (c : Char) :
    lastIndexOf p (l ++ [c]) =
      if p c then (l.length : Int) else lastIndexOf p l := by
  unfold lastIndexOf
  rw [lastIdxAux_append]
  simp

theorem lastIndexOf_bounds (p : Char → Bool) (l : List Char) :
    -1 ≤ lastIndexOf p l ∧ lastIndexOf p l < l.length := by
  induction l using List.reverseRecOn with
  | nil => simp [lastIndexOf, lastIdxAux]
  | append_singleton l c ih =>
    rw [lastIndexOf_append]
    by_cases hp : p c = true
    · rw [if_pos hp]
      simp only [List.length_append, List.length_singleton]
      constructor <;> [omega; (push_cast; omega)]
    · rw [if_neg hp]
      simp only [List.length_append, List.length_singleton]
      constructor
      · exact ih.1
      · have := ih.2
        push_cast
        push_cast at this
        omega

/-- Bridging the trailing `takeWhile` of the reversed string with the last
index of the complementary class. -/
theorem takeWhile_reverse_eq (q : Char → Bool) (l : List Char) :
    l.reverse.takeWhile q =
      (l.drop ((lastIndexOf (fun c => !q c) l) + 1).toNat).reverse := by
  induction l using List.reverseRecOn with
  | nil => simp [lastIndexOf, lastIdxAux]
  | append_singleton l c ih =>
    rw [List.reverse_append]
    simp only [List.reverse_cons, List.reverse_nil, List.nil_append,
      List.singleton_append]
    by_cases hq : q c = true
    · rw [List.takeWhile_cons_of_pos hq, ih, lastIndexOf_append,
        if_neg (by simp [hq])]
      have hb := lastIndexOf_bounds (fun c => !q c) l
      have hle : ((lastIndexOf (fun c => !q c) l) + 1).toNat ≤ l.length := by
        omega
      rw [List.drop_append_of_le_length hle, List.reverse_append]
      simp
    · rw [List.takeWhile_cons_of_neg (by simp [hq]), lastIndexOf_append,
        if_pos (by simp [hq])]
      have he : ((l.length : Int) + 1).toNat = l.length + 1 := by omega
      rw [he, List.drop_eq_nil_iff.mpr (by simp), List.reverse_nil]

theorem lastIndexOf_sat (p : Char → Bool) (l : List Char) :
    0 ≤ lastIndexOf p l →
    ∃ c, l[(lastIndexOf p l).toNat]? = some c ∧ p c = true := by
  induction l using List.reverseRecOn with
  | nil => intro h; simp [lastIndexOf, lastIdxAux] at h
  | append_singleton l c ih =>
    intro h
    rw [lastIndexOf_append] at h ⊢
    by_cases hp : p c = true
    · rw [if_pos hp] at h ⊢
      refine ⟨c, ?_, hp⟩
      have he : (l.length : Int).toNat = l.length := by omega
      rw [he, List.getElem?_append_right (by omega)]
      simp
    · rw [if_neg hp] at h ⊢
      obtain ⟨c', hg, hc'⟩ := ih h
      have hb := lastIndexOf_bounds p l
      refine ⟨c', ?_, hc'⟩
      rw [List.getElem?_append_left (by omega)]
      exact hg

theorem lastIndexOf_gt_not (p : Char → Bool) (l : List Char) :
    ∀ (j : Nat), lastIndexOf p l < (j : Int) →
    ∀ c, l[j]? = some c → p c = false := by
  induction l using List.reverseRecOn with
  | nil => intro j _ c hg; simp at hg
  | append_singleton l c0 ih =>
    intro j hj c hg
    rw [lastIndexOf_append] at hj
    have hjlen : j < l.length + 1 := by
      have := (List.getElem?_eq_some.mp hg).1
      simpa using this
    by_cases hp : p c0 = true
    · rw [if_pos hp] at hj
      exfalso
      have : l.length < j := by exact_mod_cast hj
      omega
    · rw [if_neg hp] at hj
      by_cases hcase : j < l.length
      · rw [List.getElem?_append_left hcase] at hg
        exact ih j hj c hg
      · have hje : j = l.length := by omega
        subst hje
        rw [List.getElem?_append_right (by omega)] at hg
        simp at hg
        rw [← hg]
        simpa using hp

theorem le_lastIndexOf (p : Char → Bool) {l : List Char} {j : Nat} {c : Char}
    (hg : l[j]? = some c) (hc : p c = true) : (j : Int) ≤ lastIndexOf p l := by
  by_contra h
  push_neg at h
  have := lastIndexOf_gt_not p l j h c hg
  simp [this] at hc

theorem lastIndexOf_take (p : Char → Bool) (l : List Char) (n : Nat)
    (h : lastIndexOf p l < (n : Int)) :
    lastIndexOf p (l.take n) = lastIndexOf p l := by
  by_cases h0 : 0 ≤ lastIndexOf p l
  · obtain ⟨c, hg, hc⟩ := lastIndexOf_sat p l h0
    set j := (lastIndexOf p l).toNat with hj
    have hjl : (j : Int) = lastIndexOf p l := by omega
    have hjn : j < n := by omega
    have hg' : (l.take n)[j]? = some c := by
      rw [List.getElem?_take_of_lt hjn]; exact hg
    have h1 : (j : Int) ≤ lastIndexOf p (l.take n) := le_lastIndexOf p hg' hc
    have hb2 := lastIndexOf_bounds p (l.take n)
    by_cases h2 : 0 ≤ lastIndexOf p (l.take n)
    · obtain ⟨c', hg2, hc2⟩ := lastIndexOf_sat p (l.take n) h2
      set j2 := (lastIndexOf p (l.take n)).toNat with hj2
      have hj2n : j2 < n := by
        have hlt := (List.getElem?_eq_some.mp hg2).1
        have hlen := List.length_take_le n l
        omega
      have hg2' : l[j2]? = some c' := by
        rw [← List.getElem?_take_of_lt hj2n]; exact hg2
      have h3 : (j2 : Int) ≤ lastIndexOf p l := le_lastIndexOf p hg2' hc2
      omega
    · omega
  · have hl : lastIndexOf p l = -1 := by
      have := (lastIndexOf_bounds p l).1
      omega
    rw [hl]
    by_contra hne
    have hb2 := lastIndexOf_bounds p (l.take n)
    have h2 : 0 ≤ lastIndexOf p (l.take n) := by omega
    obtain ⟨c', hg2, hc2⟩ := lastIndexOf_sat p (l.take n) h2
    set j2 := (lastIndexOf p (l.take n)).toNat with hj2
    have hj2n : j2 < n := by
      have hlt := (List.getElem?_eq_some.mp hg2).1
      have hlen := List.length_take_le n l
      omega
    have hg2' : l[j2]? = some c' := by
      rw [← List.getElem?_take_of_lt hj2n]; exact hg2
    have := le_lastIndexOf p hg2' hc2
    omega

theorem lastIndexOf_or (f g : Char → Bool) (l : List Char) :
    lastIndexOf (fun c => f c || g c) l =
      max (lastIndexOf f l) (lastIndexOf g l) := by
  induction l using List.reverseRecOn with
  | nil => simp [lastIndexOf, lastIdxAux]
  | append_singleton l c ih =>
    rw [lastIndexOf_append, lastIndexOf_append, lastIndexOf_append]
    have hbf := lastIndexOf_bounds f l
    have hbg := lastIndexOf_bounds g l
    by_cases hf : f c = true
    · by_cases hg : g c = true
      · rw [if_pos (by simp [hf]), if_pos hf, if_pos hg, max_self]
      · rw [if_pos (by simp [hf]), if_pos hf, if_neg hg]
        exact (max_eq_left (by omega)).symm
    · by_cases hg : g c = true
      · rw [if_pos (by simp [hg]), if_neg hf, if_pos hg]
        exact (max_eq_right (by omega)).symm
      · rw [if_neg (by simp [hf, hg]), if_neg hf, if_neg hg]
        exact ih

/-- The implementation's extension split coincides with the trailing-run
description `amendedSplit`: the extension starts at the final dot provided
that dot comes after the last slash and some character strictly between them
is not itself a dot; otherwise there is no extension. -/
theorem pySplitExt_eq_amendedSplit (p : List Char) :
    pySplitExt p = amendedSplit p := by
  have hpre : p.reverse.takeWhile (fun c => !(c == '.' || c == '/')) =
      (p.drop ((lastIndexOf (fun c => c == '.' || c == '/') p) + 1).toNat).reverse := by
    rw [takeWhile_reverse_eq]
    simp only [Bool.not_not]
  have hrev : p.reverse =
      (p.drop ((lastIndexOf (fun c => c == '.' || c == '/') p) + 1).toNat).reverse ++
      (p.take ((lastIndexOf (fun c => c == '.' || c == '/') p) + 1).toNat).reverse := by
    rw [← List.reverse_append, List.take_append_drop]
  have hrest : p.reverse.drop
      ((p.reverse.takeWhile (fun c => !(c == '.' || c == '/'))).length) =
      (p.take ((lastIndexOf (fun c => c == '.' || c == '/') p) + 1).toNat).reverse := by
    rw [hpre]
    conv_lhs => rw [hrev]
    exact List.drop_left _ _
  have hmax : lastIndexOf (fun c : Char => c == '.' || c == '/') p =
      max (lastIndexOf (fun c : Char => c == '.') p)
        (lastIndexOf (fun c : Char => c == '/') p) := lastIndexOf_or _ _ p
  have hbd := lastIndexOf_bounds (fun c : Char => c == '.') p
  have hbs := lastIndexOf_bounds (fun c : Char => c == '/') p
  have hbm := lastIndexOf_bounds (fun c : Char => c == '.' || c == '/') p
  simp only [pySplitExt, amendedSplit]
  rw [hrest, hpre]
  set dI := lastIndexOf (fun c : Char => c == '.') p with hdI
  set sI := lastIndexOf (fun c : Char => c == '/') p with hsI
  set mI := lastIndexOf (fun c : Char => c == '.' || c == '/') p with hmI
  by_cases hm0 : 0 ≤ mI
  · obtain ⟨c, hgc, hcc0⟩ := lastIndexOf_sat _ p hm0
    rw [← hmI] at hgc
    have hcc : (c == '.' || c == '/') = true := hcc0
    have hmlen : mI.toNat < p.length := by omega
    have hk1 : (mI + 1).toNat = mI.toNat + 1 := by omega
    have hktake : p.take (mI + 1).toNat = p.take mI.toNat ++ [c] := by
      rw [hk1, List.take_succ, hgc]
      simp
    rw [hktake, List.reverse_append]
    simp only [List.reverse_cons, List.reverse_nil, List.nil_append,
      List.singleton_append, List.head?_cons, List.tail_cons]
    by_cases hc : c = '.'
    · subst hc
      have hdm : dI = mI := by
        have h1 : ((mI.toNat : Nat) : Int) ≤ dI :=
          le_lastIndexOf _ hgc (by simp)
        have h2 : dI ≤ mI := by rw [hmax]; exact le_max_left _ _
        omega
      have hsm : sI < mI := by
        have h2 : sI ≤ mI := by rw [hmax]; exact le_max_right _ _
        rcases h2.lt_or_eq with h | h
        · exact h
        · exfalso
          have hs0 : 0 ≤ sI := by omega
          obtain ⟨c', hgc', hcc'⟩ := lastIndexOf_sat _ p hs0
          rw [← hsI, h] at hgc'
          rw [hgc] at hgc'
          injection hgc' with he
          rw [← he] at hcc'
          simp at hcc'
      rw [if_pos (by rw [hdm]; exact hsm)]
      have hTW : (p.take mI.toNat).reverse.takeWhile (fun x => x != '/') =
          ((p.take mI.toNat).drop
            ((lastIndexOf (fun c => c == '/') (p.take mI.toNat)) + 1).toNat).reverse := by
        rw [takeWhile_reverse_eq]
        simp only [bne, Bool.not_not]
      have hsepTake : lastIndexOf (fun c : Char => c == '/') (p.take mI.toNat) = sI := by
        exact lastIndexOf_take _ p mI.toNat
          (by show sI < ((mI.toNat : Nat) : Int); omega)
      rw [hTW, hsepTake, List.drop_take, List.any_reverse]
      have hwidth : mI.toNat - (sI + 1).toNat = dI.toNat - (sI + 1).toNat := by
        rw [hdm]
      rw [← hdm] at hk1 ⊢
      by_cases hcond : ((p.drop (sI + 1).toNat).take (dI.toNat - (sI + 1).toNat)).any
          (fun x => x != '.') = true
      · rw [if_pos hcond, if_pos ⟨rfl, hcond⟩, List.reverse_reverse,
          List.reverse_reverse]
        refine congrArg _ ?_
        rw [hk1]
        rw [List.drop_eq_getElem_cons (by omega : dI.toNat < p.length)]
        refine congrArg₂ _ ?_ rfl
        have hgd : p[dI.toNat]? = some '.' := by rw [← hdm] at hgc; exact hgc
        rw [List.getElem?_eq_some] at hgd
        obtain ⟨hh, hv⟩ := hgd
        exact hv
      · rw [if_neg hcond, if_neg (by rintro ⟨-, h2⟩; exact hcond h2)]
    · have hc' : c = '/' := by
        have h2 := hcc
        simp only [Bool.or_eq_true, beq_iff_eq] at h2
        rcases h2 with h | h
        · exact absurd h hc
        · exact h
      subst hc'
      have hsm : sI = mI := by
        have h1 : ((mI.toNat : Nat) : Int) ≤ sI :=
          le_lastIndexOf _ hgc (by simp)
        have h2 : sI ≤ mI := by rw [hmax]; exact le_max_right _ _
        omega
      have hdm : dI < mI := by
        have h2 : dI ≤ mI := by rw [hmax]; exact le_max_left _ _
        rcases h2.lt_or_eq with h | h
        · exact h
        · exfalso
          have hd0 : 0 ≤ dI := by omega
          obtain ⟨c', hgc', hcc'⟩ := lastIndexOf_sat _ p hd0
          rw [← hdI, h] at hgc'
          rw [hgc] at hgc'
          injection hgc' with he
          rw [← he] at hcc'
          simp at hcc'
      rw [if_neg (by omega)]
      rw [if_neg (by rintro ⟨h1, -⟩; simp at h1)]
  · have hm1 : mI = -1 := by omega
    have hd1 : dI = -1 := by
      have := le_max_left dI sI
      rw [← hmax] at this
      omega
    have hs1 : sI = -1 := by
      have := le_max_right dI sI
      rw [← hmax] at this
      omega
    have hk0 : (mI + 1).toNat = 0 := by omega
    rw [hk0]
    simp only [List.take_zero, List.reverse_nil, List.head?_nil, List.tail_nil]
    rw [if_neg (by omega), if_neg (by rintro ⟨h1, -⟩; exact absurd h1 (by simp))]

/-- C8 counterexample: on the dotfile-like name `".mkv"` the implementation
returns stem `".mkv"` and empty extension, while the claim's
final-dot-onward rule would return stem `""` and extension `".mkv"` — the
claim fails for filenames beginning with a dot. -/
theorem claim_C8_counterexample :
    pySplitExt ".mkv".data = (".mkv".data, []) ∧
    claimSplit ".mkv".data = ([], ".mkv".data) ∧
    pySplitExt ".mkv".data ≠ claimSplit ".mkv".data :=
  ⟨by decide, by decide, by decide⟩

/-- Stem and extension always recombine into the original filename. -/
theorem pySplitExt_append (f : List Char) :
    (pySplitExt f).1 ++ (pySplitExt f).2 = f := by
  simp only [pySplitExt]
  split_ifs <;> simp

/-- C8 amended: the extension starts at the final `.` only when that dot
comes after the last `/` and a character strictly between them is not a dot
(leading dots never open an extension, so a name such as `".mkv"` has no
extension); otherwise the extension is empty.  The stem is what precedes the
extension — stem and extension concatenate to the filename — and
`generate_new_filename` appends that same extension. -/
theorem claim_C8_amended :
    (∀ f : List Char, pySplitExt f = amendedSplit f) ∧
    (∀ f : List Char, (pySplitExt f).1 ++ (pySplitExt f).2 = f) ∧
    (∀ name f : List Char, generate_new_filename name none f =
      (name ++ (amendedSplit f).2).filter (fun c => !reservedChar c)) := by
  refine ⟨pySplitExt_eq_amendedSplit, pySplitExt_append, ?_⟩
  intro name f
  simp only [generate_new_filename, pySub_reserved_eq_filter,
    pySplitExt_eq_amendedSplit]

end AnimeBot
